import Mathlib

/-! Verification development for the banker_algorithm repository.

Shallow embedding of src/src/doubly_linked_list.hpp, src/src/hash_table.hpp
and src/src/bank.hpp.  Machine unsigned 64-bit arithmetic is modelled on Nat
with explicit reduction modulo 2^64.  The C++ double computations on the loan
and deposit interests are modelled by exact rationals together with an
executable IEEE-754 binary64 round-to-nearest-even function roundD; uint64
values converted to double pass through roundD, and the final store back into
a uint64 truncates with Int.floor, exactly as the C++ conversions do for
values in the representable range (subnormals and overflow past 2^64 do not
occur at any input considered in this development). -/

/-- Modulus of the C++ std::uint64_t type. -/
def w64 : Nat := 2 ^ 64

/-- Machine addition of two uint64 values (wrap-around modulo 2^64). -/
def add64 (x y : Nat) : Nat := (x + y) % w64

/-- Machine subtraction of two uint64 values (wrap-around modulo 2^64):
for x, y < 2^64 this is x - y when y ≤ x and x + 2^64 - y otherwise. -/
def sub64 (x y : Nat) : Nat := (x + (w64 - y % w64)) % w64

namespace DoublyLinkedList

/-- Core of DoublyLinkedList<T>::remove_valuebased: walk the list from the
front and unlink the first element satisfying p; none models the
std::out_of_range throw when no element matches. -/
def remove_firstp (p : α → Bool) : List α → Option (List α)
  | [] => none
  | x :: xs => if p x then some xs else (remove_firstp p xs).map (fun l => x :: l)

/-- Embedding of DoublyLinkedList<T>::remove_valuebased; the operator== of
the element type is passed explicitly as eq, applied as eq element value. -/
def remove_valuebased (eq : α → α → Bool) (value : α) (l : List α) : Option (List α) :=
  remove_firstp (fun x => eq x value) l

/-- Embedding of DoublyLinkedList<T>::contains. -/
def contains (eq : α → α → Bool) (value : α) (l : List α) : Bool :=
  l.any (fun x => eq x value)

/-- Index of the first element satisfying p; specification-side helper used
to state which element remove_valuebased removes. -/
def firstMatchIdx (p : α → Bool) : List α → Option Nat
  | [] => none
  | x :: xs => if p x then some 0 else (firstMatchIdx p xs).map (fun i => i + 1)

end DoublyLinkedList

/-- Embedding of HashTableItem<T>; operator== of the C++ class compares keys
only, which the table operations below apply directly. -/
structure HashTableItem (T : Type) where
  key : Nat
  value : T
deriving DecidableEq

/-- Error kinds of the ledger operations: duplicateKey models the
std::runtime_error of insert, keyNotFound the std::out_of_range of remove
and operator[], internalError the out_of_range escaping from the key-list
removal inside remove (an invariant violation, fatal in the design). -/
inductive HtError
  | duplicateKey
  | keyNotFound
  | internalError
deriving DecidableEq

/-- Embedding of HashTable<T>.  The bucket array _items_list is modelled as
a total function from bucket index to bucket contents; buckets are the
DoublyLinkedList embedding, i.e. plain lists. -/
structure HashTable (T : Type) where
  bucket_capacity : Nat
  items_list : Nat → List (HashTableItem T)
  keys_list : List Nat
  count : Nat

/-- Knuth multiplicative hash of HashTable<T>::_hash_function; the uint32
multiplication wraps modulo 2^32 before the reduction modulo the capacity. -/
def hashFn (cap key : Nat) : Nat := key * 2654435761 % 2 ^ 32 % cap

/-- Scan of a bucket for the first item with the given key, returning its
value; this is the loop of HashTable<T>::operator[] const. -/
def lookupFirst (key : Nat) : List (HashTableItem T) → Option T
  | [] => none
  | it :: rest => if it.key == key then some it.value else lookupFirst key rest

/-- Scan of a bucket for the first item with the given key, replacing its
value through f; this is HashTable<T>::operator[] used as the target of a
compound assignment.  none models the std::out_of_range throw. -/
def listUpdateFirst (key : Nat) (f : T → T) : List (HashTableItem T) → Option (List (HashTableItem T))
  | [] => none
  | it :: rest =>
    if it.key == key then some ({ key := it.key, value := f it.value } :: rest)
    else (listUpdateFirst key f rest).map (fun l => it :: l)

namespace HashTable

/-- Construction of an empty table with the given bucket capacity
(HashTable<T>::HashTable; the C++ default capacity is 65536). -/
def empty (T : Type) (cap : Nat) : HashTable T :=
  ⟨cap, fun _ => [], [], 0⟩

/-- Bucket holding the given key. -/
def bucketOf (t : HashTable T) (key : Nat) : List (HashTableItem T) :=
  t.items_list (hashFn t.bucket_capacity key)

/-- Embedding of HashTable<T>::contains: a scan of the key's bucket using
the item operator== (key equality). -/
def contains (t : HashTable T) (key : Nat) : Bool :=
  (t.bucketOf key).any (fun it => it.key == key)

/-- Embedding of HashTable<T>::insert: fails with duplicateKey when the
bucket already holds the key, otherwise appends the item to the bucket,
appends the key to the key list and increments the count. -/
def insert (t : HashTable T) (key : Nat) (value : T) : Except HtError (HashTable T) :=
  if t.contains key then .error .duplicateKey
  else .ok
    { bucket_capacity := t.bucket_capacity
      items_list := fun i =>
        if i = hashFn t.bucket_capacity key then t.bucketOf key ++ [⟨key, value⟩]
        else t.items_list i
      keys_list := t.keys_list ++ [key]
      count := t.count + 1 }

/-- Embedding of HashTable<T>::remove: fails with keyNotFound when the
bucket does not hold the key; otherwise removes the first item with that key
from the bucket (operator== compares keys) and the first occurrence of the
key from the key list, decrementing the count.  The C++ code builds a dummy
item {key} for the bucket removal, whose operator== only reads the key, so
the bucket removal is the first-key-match removal written here; a failure of
the key-list removal is the fatal internalError case. -/
def remove (t : HashTable T) (key : Nat) : Except HtError (HashTable T) :=
  if t.contains key then
    match DoublyLinkedList.remove_firstp (fun it => it.key == key) (t.bucketOf key),
          DoublyLinkedList.remove_valuebased (fun a b => a == b) key t.keys_list with
    | some b2, some k2 => .ok
        { bucket_capacity := t.bucket_capacity
          items_list := fun i =>
            if i = hashFn t.bucket_capacity key then b2 else t.items_list i
          keys_list := k2
          count := t.count - 1 }
    | _, _ => .error .internalError
  else .error .keyNotFound

/-- Embedding of HashTable<T>::operator[] const: value of the first item of
the key's bucket with the given key, keyNotFound when absent. -/
def get (t : HashTable T) (key : Nat) : Except HtError T :=
  match lookupFirst key (t.bucketOf key) with
  | some v => .ok v
  | none => .error .keyNotFound

/-- Embedding of a compound assignment through HashTable<T>::operator[]:
the value of the first item with the given key is replaced by f of it. -/
def updateFirst (t : HashTable T) (key : Nat) (f : T → T) : Except HtError (HashTable T) :=
  match listUpdateFirst key f (t.bucketOf key) with
  | some b2 => .ok
      { bucket_capacity := t.bucket_capacity
        items_list := fun i =>
          if i = hashFn t.bucket_capacity key then b2 else t.items_list i
        keys_list := t.keys_list
        count := t.count }
  | none => .error .keyNotFound

/-- Embedding of HashTable<T>::length. -/
def length (t : HashTable T) : Nat := t.count

/-- Embedding of HashTable<T>::keys. -/
def keys (t : HashTable T) : List Nat := t.keys_list

/-- Well-formedness invariant of the table: every item sits in the bucket
its key hashes to, no bucket holds two items with the same key, the key list
has no duplicates, a key is in the key list exactly when its bucket holds an
item with that key, and the count equals the key-list length. -/
structure WF (t : HashTable T) : Prop where
  cap_pos : 0 < t.bucket_capacity
  placement : ∀ i, ∀ it ∈ t.items_list i, hashFn t.bucket_capacity it.key = i
  bucket_nodup : ∀ i, (t.items_list i).Pairwise (fun a b => a.key ≠ b.key)
  keys_nodup : t.keys_list.Nodup
  mem_iff : ∀ k, k ∈ t.keys_list ↔ ∃ it ∈ t.bucketOf k, it.key = k
  count_eq : t.count = t.keys_list.length

end HashTable

/-- Ledger operations for quantifying over arbitrary insert/remove
sequences. -/
inductive LedgerOp (T : Type)
  | ins (key : Nat) (value : T)
  | rem (key : Nat)

/-- Application of one ledger operation; a failing operation throws in C++
before any mutation, so it leaves the table unchanged. -/
def applyLedgerOp (t : HashTable T) : LedgerOp T → HashTable T
  | .ins k v =>
    match t.insert k v with
    | .ok t2 => t2
    | .error _ => t
  | .rem k =>
    match t.remove k with
    | .ok t2 => t2
    | .error _ => t

/-- Application of a sequence of ledger operations. -/
def applyLedgerOps (t : HashTable T) (ops : List (LedgerOp T)) : HashTable T :=
  ops.foldl applyLedgerOp t

/-- Nonnegative dyadic rational m · 2^e; the exact value of every IEEE-754
binary64 number appearing in this development (the interest rates, the
intermediate double products and sums of the C++ code) is such a number.
Different representations may denote the same value; all operations below
are value-faithful for every representation. -/
structure Dyadic where
  m : Nat
  e : Int
deriving DecidableEq

/-- Exact product of two dyadics. -/
def dmul (a b : Dyadic) : Dyadic := ⟨a.m * b.m, a.e + b.e⟩

/-- Exact sum of two dyadics (aligned to the smaller exponent). -/
def dadd (a b : Dyadic) : Dyadic :=
  let e := min a.e b.e
  ⟨a.m * 2 ^ (a.e - e).toNat + b.m * 2 ^ (b.e - e).toNat, e⟩

/-- Truncation of a nonnegative dyadic to an integer; this is the value a
C++ double-to-uint64 conversion produces for in-range values. -/
def Dyadic.floorNat (a : Dyadic) : Nat :=
  if 0 ≤ a.e then a.m * 2 ^ a.e.toNat else a.m / 2 ^ (-a.e).toNat

/-- Base-2 logarithm by repeated halving; the fuel only bounds the
recursion depth and any fuel at least log2 n gives the same value, so
callers pass n itself. -/
def natLog2F (fuel n : Nat) : Nat :=
  match fuel with
  | 0 => 0
  | f + 1 => if n < 2 then 0 else natLog2F f (n / 2) + 1

/-- Test 2^E ≤ n / d on integers. -/
def dyLe (E : Int) (n d : Nat) : Bool :=
  if 0 ≤ E then decide (d * 2 ^ E.toNat ≤ n) else decide (d ≤ n * 2 ^ (-E).toNat)

/-- Integer division of N by D rounded to nearest, ties to even. -/
def divRNE (N D : Nat) : Nat :=
  let q := N / D
  let r := N % D
  if r * 2 < D then q else if D < r * 2 then q + 1 else if q % 2 = 0 then q else q + 1

/-- Rounding of the fraction n / d (n, d positive) to the nearest IEEE-754
binary64 value (round to nearest, ties to even): E is the binade with
2^E ≤ n/d < 2^(E+1), and the mantissa is the half-even rounding of
(n/d) · 2^(52-E), which lands in [2^52, 2^53].  All inputs of this
development are normal-range values, so subnormals and overflow are not
modelled. -/
def roundRatD (n d : Nat) : Dyadic :=
  if n = 0 ∨ d = 0 then ⟨0, 0⟩
  else
    let E0 : Int := (natLog2F n n : Int) - (natLog2F d d : Int)
    let E : Int := if dyLe (E0 + 1) n d then E0 + 1 else if dyLe E0 n d then E0 else E0 - 1
    let s : Int := 52 - E
    let mant := if 0 ≤ s then divRNE (n * 2 ^ s.toNat) d else divRNE n (d * 2 ^ (-s).toNat)
    ⟨mant, E - 52⟩

/-- Rounding of a nonnegative dyadic to the nearest binary64 value. -/
def roundD (a : Dyadic) : Dyadic :=
  if 0 ≤ a.e then roundRatD (a.m * 2 ^ a.e.toNat) 1 else roundRatD a.m (2 ^ (-a.e).toNat)

/-- Embedding of RequestType of bank.hpp. -/
inductive RequestType
  | OpenAccount
  | CloseAccount
  | Deposit
  | Withdraw
  | Loan
  | None
deriving DecidableEq

/-- Embedding of NewLoan; operator== compares keys only. -/
structure NewLoan where
  key : Nat
  loan_budget : Nat
deriving DecidableEq

/-- Embedding of NewOperation; operator== compares keys only. -/
structure NewOperation where
  key : Nat
  new_request_type : RequestType
  new_request_budget : Nat
deriving DecidableEq

/-- Error kinds surfaced by Bank::request: duplicateKey from the ledger
insert of OpenAccount, keyNotFound from the ledger operator[] of Deposit. -/
inductive BankErr
  | duplicateKey
  | keyNotFound
deriving DecidableEq

/-- Embedding of the Bank class state. -/
structure Bank where
  bank_budget : Nat
  loan_interest : Dyadic
  deposit_interest : Dyadic
  accounts_budget : HashTable Nat
  new_loans : List NewLoan
  new_operations : List NewOperation

/-- One uint64 += double step of the loan code paths: the uint64 budget and
uint64 loan are converted to double (roundD), the product with the stored
loan-interest double and then the sum are each rounded to double, and the
store back into the uint64 truncates (Int.floor). -/
def addLoanInterest (rate : Dyadic) (budget loan : Nat) : Nat :=
  (roundD (dadd (roundD ⟨budget, 0⟩) (roundD (dmul (roundD ⟨loan, 0⟩) rate)))).floorNat

/-- One uint64 *= double step of Bank::update_interests: the account budget
is multiplied by the double value of 1 + deposit_interest and truncated back
into the uint64. -/
def applyInterest (dep : Dyadic) (v : Nat) : Nat :=
  (roundD (dmul (roundD ⟨v, 0⟩) (roundD (dadd ⟨1, 0⟩ dep)))).floorNat

namespace Bank

/-- Embedding of Bank::request.  The bank-wide budget is increased before
the ledger call for OpenAccount and Deposit, so a thrown ledger error leaves
the budget already increased; CloseAccount and Withdraw only enqueue a
NewOperation, Loan only enqueues a NewLoan, and the None kind matches no
switch case and does nothing. -/
def request (b : Bank) (key : Nat) (request_type : RequestType) (request_budget : Nat) :
    Option BankErr × Bank :=
  match request_type with
  | .OpenAccount =>
    let b1 := { b with bank_budget := add64 b.bank_budget request_budget }
    match b1.accounts_budget.insert key request_budget with
    | .ok t => (none, { b1 with accounts_budget := t })
    | .error _ => (some .duplicateKey, b1)
  | .Deposit =>
    let b1 := { b with bank_budget := add64 b.bank_budget request_budget }
    match b1.accounts_budget.updateFirst key (fun v => add64 v request_budget) with
    | .ok t => (none, { b1 with accounts_budget := t })
    | .error _ => (some .keyNotFound, b1)
  | .CloseAccount =>
    (none, { b with new_operations := b.new_operations ++ [⟨key, .CloseAccount, request_budget⟩] })
  | .Withdraw =>
    (none, { b with new_operations := b.new_operations ++ [⟨key, .Withdraw, request_budget⟩] })
  | .Loan =>
    (none, { b with new_loans := b.new_loans ++ [⟨key, request_budget⟩] })
  | .None => (none, b)

/-- Embedding of Bank::pending_request. -/
def pending_request (b : Bank) (key : Nat) : Bool :=
  DoublyLinkedList.contains (fun a b => a.key == b.key) (⟨key, 0⟩ : NewLoan) b.new_loans ||
    DoublyLinkedList.contains (fun a b => a.key == b.key)
      (⟨key, .None, 0⟩ : NewOperation) b.new_operations

/-- Embedding of Bank::pending_loans (the C++ int-to-bool conversion of the
queue length). -/
def pending_loans (b : Bank) : Bool := b.new_loans.length != 0

/-- Embedding of Bank::pending_operations. -/
def pending_operations (b : Bank) : Bool := b.new_operations.length != 0

end Bank

/-- One scan of the for-loop inside Bank::_are_safe_loans over the pending
loans paired with their dispensed flags: every not-yet-dispensed loan whose
amount fits in the working budget is dispensed in place, the working budget
gains the rounded interest, and the returned Bool is the found flag (true
when the scan dispensed at least one loan). -/
def scanPass (rate : Dyadic) : List (NewLoan × Bool) → Nat → List (NewLoan × Bool) × Nat × Bool
  | [], budget => ([], budget, false)
  | (l, d) :: rest, budget =>
    if !d && decide (l.loan_budget ≤ budget) then
      let b2 := addLoanInterest rate budget l.loan_budget
      let r := scanPass rate rest b2
      ((l, true) :: r.1, r.2.1, true)
    else
      let r := scanPass rate rest budget
      ((l, d) :: r.1, r.2.1, r.2.2)

/-- Outer while-loop of Bank::_are_safe_loans: while some loan is
undispensed, run a scan; a scan that dispenses nothing makes the batch
unsafe.  Each executed scan dispenses at least one loan, so the while loop
of the C++ code runs at most as many times as there are loans; fuel is
initialised to that bound by are_safe_loans, and when it reaches zero all
loans are already dispensed, which the all check reports faithfully. -/
def safeLoansGo (rate : Dyadic) (fuel : Nat) (st : List (NewLoan × Bool)) (budget : Nat) : Bool :=
  match fuel with
  | 0 => st.all (fun p => p.2)
  | f + 1 =>
    if st.all (fun p => p.2) then true
    else
      let r := scanPass rate st budget
      if r.2.2 then safeLoansGo rate f r.1 r.2.1 else false

namespace Bank

/-- Embedding of Bank::_are_safe_loans. -/
def are_safe_loans (b : Bank) : Bool :=
  safeLoansGo b.loan_interest b.new_loans.length
    (b.new_loans.map (fun l => (l, false))) b.bank_budget

/-- Embedding of Bank::_are_safe_operations: the uint64 accumulation of the
pending amounts (wrapping modulo 2^64) compared against the bank budget. -/
def are_safe_operations (b : Bank) : Bool :=
  decide (b.new_operations.foldl (fun n op => add64 n op.new_request_budget) 0 ≤ b.bank_budget)

/-- Embedding of Bank::update_accounts_loans: an empty queue is vacuously
accepted; otherwise, when the batch is safe the bank budget gains the
rounded interest of every pending loan, and the queue is cleared in both
outcomes. -/
def update_accounts_loans (b : Bank) : Bool × Bank :=
  if b.new_loans.length = 0 then (true, b)
  else
    let is_safe := b.are_safe_loans
    let b2 :=
      if is_safe then
        { b with bank_budget :=
            (b.new_loans.foldl (fun n l => addLoanInterest b.loan_interest n l.loan_budget)
              b.bank_budget) }
      else b
    (is_safe, { b2 with new_loans := [] })

end Bank

/-- Loop body of Bank::update_accounts_operations once the batch was judged
safe: for each pending operation the bank budget is decreased (uint64 wrap)
and the per-kind ledger effect applied; a ledger error stops the loop with
the state mutated so far and the final Bool false (the C++ exception
propagates).  Request kinds other than CloseAccount and Withdraw match no
switch case, so only the budget decrement happens for them. -/
def runOps : List NewOperation → Nat → HashTable Nat → Nat × HashTable Nat × Bool
  | [], budget, tbl => (budget, tbl, true)
  | op :: rest, budget, tbl =>
    match op.new_request_type with
    | .CloseAccount =>
      match tbl.remove op.key with
      | .ok t2 => runOps rest (sub64 budget op.new_request_budget) t2
      | .error _ => (sub64 budget op.new_request_budget, tbl, false)
    | .Withdraw =>
      match tbl.updateFirst op.key (fun v => sub64 v op.new_request_budget) with
      | .ok t2 => runOps rest (sub64 budget op.new_request_budget) t2
      | .error _ => (sub64 budget op.new_request_budget, tbl, false)
    | _ => runOps rest (sub64 budget op.new_request_budget) tbl

namespace Bank

/-- Embedding of Bank::update_accounts_operations.  The first component is
some result for a normal return and none when a ledger exception escapes;
in the exception case the queue is not cleared (the clear call is never
reached) and the budget and ledger keep the partial mutations. -/
def update_accounts_operations (b : Bank) : Option Bool × Bank :=
  if b.new_operations.length = 0 then (some true, b)
  else
    if b.are_safe_operations then
      match runOps b.new_operations b.bank_budget b.accounts_budget with
      | (bud, tbl, true) =>
        (some true, { b with bank_budget := bud, accounts_budget := tbl, new_operations := [] })
      | (bud, tbl, false) => (none, { b with bank_budget := bud, accounts_budget := tbl })
    else (some false, { b with new_operations := [] })

end Bank

/-- Loop of Bank::update_interests over a key list: each account budget is
multiplied by 1 + deposit_interest; the Bool is false when a ledger lookup
fails (the C++ exception would escape with the state mutated so far). -/
def interestLoop (dep : Dyadic) : List Nat → HashTable Nat → HashTable Nat × Bool
  | [], t => (t, true)
  | k :: ks, t =>
    match t.updateFirst k (applyInterest dep) with
    | .ok t2 => interestLoop dep ks t2
    | .error _ => (t, false)

namespace Bank

/-- Embedding of Bank::update_interests: the loop index runs to the table
count, reading keys from the key list; when the count exceeds the key-list
length the C++ index access throws, reported here by the final Bool. -/
def update_interests (b : Bank) : Bank × Bool :=
  let n := b.accounts_budget.count
  let r := interestLoop b.deposit_interest (b.accounts_budget.keys_list.take n) b.accounts_budget
  ({ b with accounts_budget := r.1 }, r.2 && decide (n ≤ b.accounts_budget.keys_list.length))

/-- Embedding of Bank::get_bank_budget. -/
def get_bank_budget (b : Bank) : Nat := b.bank_budget

/-- Embedding of Bank::get_account_budget. -/
def get_account_budget (b : Bank) (key : Nat) : Except HtError Nat :=
  b.accounts_budget.get key

/-- Embedding of Bank::exist. -/
def exist (b : Bank) (key : Nat) : Bool := b.accounts_budget.contains key

/-- Embedding of Bank::n_accounts. -/
def n_accounts (b : Bank) : Nat := b.accounts_budget.count

end Bank

/-- Driver-visible actions on a Bank, for quantifying over reachable
states. -/
inductive BankAct
  | req (key : Nat) (request_type : RequestType) (amt : Nat)
  | updLoans
  | updOps
  | updInterests

/-- State reached after one driver action (return values and errors are
dropped; the C++ object keeps the mutations even when an exception escapes). -/
def bankStep (b : Bank) : BankAct → Bank
  | .req k t a => (b.request k t a).2
  | .updLoans => b.update_accounts_loans.2
  | .updOps => b.update_accounts_operations.2
  | .updInterests => b.update_interests.1

/-- State reached after a sequence of driver actions. -/
def bankRun (b0 : Bank) (acts : List BankAct) : Bank :=
  acts.foldl bankStep b0

/-- Bank as constructed by Bank::Bank with the default interest rates 0.1
and 0.005 (converted to the nearest doubles) and the default ledger bucket
capacity 65536. -/
def mkBank (initial : Nat) : Bank :=
  ⟨initial, roundRatD 1 10, roundRatD 1 200, HashTable.empty Nat 65536, [], []⟩

/-- Reachability of a Bank state from a freshly constructed bank through
driver actions. -/
def Reachable (b : Bank) : Prop :=
  ∃ initial acts, b = bankRun (mkBank initial) acts

/-- Exact (mathematical) sum of the pending operation amounts. -/
def opsTotal (ops : List NewOperation) : Nat :=
  (ops.map (fun op => op.new_request_budget)).sum

deriving instance DecidableEq for Except

/-- Bank of the loan-admission example with budget 100 and pending loans
60 and 50 (spec section 8). -/
def bankLoanEx1 : Bank :=
  ⟨100, roundRatD 1 10, roundRatD 1 200, HashTable.empty Nat 65536, [⟨1, 60⟩, ⟨2, 50⟩], []⟩

/-- Bank of the unsafe loan-admission example with budget 10 and pending
loans 20 and 5 (spec section 8). -/
def bankLoanEx2 : Bank :=
  ⟨10, roundRatD 1 10, roundRatD 1 200, HashTable.empty Nat 65536, [⟨1, 20⟩, ⟨2, 5⟩], []⟩

/-- Driver actions opening account 1 with 5 and then withdrawing 50 from
it, committing the batch. -/
def withdrawWrapActs : List BankAct :=
  [.req 1 .OpenAccount 5, .req 1 .Withdraw 50, .updOps]

/-- State reached by withdrawWrapActs from a fresh bank with budget 100. -/
def bankWithdrawWrap : Bank := bankRun (mkBank 100) withdrawWrapActs

/-- Driver actions opening two empty accounts and queueing a withdrawal of
2^63 from each. -/
def budgetWrapActs : List BankAct :=
  [.req 1 .OpenAccount 0, .req 2 .OpenAccount 0, .req 1 .Withdraw (2 ^ 63), .req 2 .Withdraw (2 ^ 63)]

/-- State reached by budgetWrapActs from a fresh bank with budget 0. -/
def bankBudgetWrap : Bank := bankRun (mkBank 0) budgetWrapActs

/-- Bank whose operations queue closes an account that is not in the
ledger. -/
def bankCloseMissing : Bank :=
  ⟨100, roundRatD 1 10, roundRatD 1 200, HashTable.empty Nat 65536, [], [⟨1, .CloseAccount, 0⟩]⟩

/-- Bank with budget 5, two empty accounts, and two pending withdrawals of
2^63 whose exact sum wraps the uint64 accumulation to 0. -/
def bankSumWrap : Bank :=
  ⟨5, roundRatD 1 10, roundRatD 1 200,
    applyLedgerOps (HashTable.empty Nat 65536) [.ins 1 0, .ins 2 0], [],
    [⟨1, .Withdraw, 2 ^ 63⟩, ⟨2, .Withdraw, 2 ^ 63⟩]⟩

/-- Bank with budget 50, accounts 1 ↦ 30 and 2 ↦ 25, a pending withdrawal
of 10 from account 1 and a pending close of account 2 with amount 25. -/
def bankOpsEx : Bank :=
  ⟨50, roundRatD 1 10, roundRatD 1 200,
    applyLedgerOps (HashTable.empty Nat 65536) [.ins 1 30, .ins 2 25], [],
    [⟨1, .Withdraw, 10⟩, ⟨2, .CloseAccount, 25⟩]⟩

/-- Bank with budget 10 and a single pending loan of 20, a rejected loan
batch. -/
def bankLoanRejEx : Bank :=
  ⟨10, roundRatD 1 10, roundRatD 1 200, HashTable.empty Nat 65536, [⟨7, 20⟩], []⟩

/-- Bank with budget 8 and an account 2 ↦ 5, reached from a fresh bank. -/
def bankReqEx : Bank := (Bank.request (mkBank 3) 2 .OpenAccount 5).2

/-- Ledger operation sequence exercising insert, duplicate insert, remove
and missing remove. -/
def ledgerOpsEx : List (LedgerOp Nat) :=
  [.ins 1 10, .ins 2 20, .ins 1 30, .rem 1, .rem 5]

/-- Driver actions opening account 1 with 5 and queueing a withdrawal of 3
from it. -/
def reachOpsActs : List BankAct :=
  [.req 1 .OpenAccount 5, .req 1 .Withdraw 3]

/-- State reached by reachOpsActs from a fresh bank with budget 100. -/
def bankReachOps : Bank := bankRun (mkBank 100) reachOpsActs

namespace DoublyLinkedList

theorem remove_firstp_none (p : α → Bool) (l : List α) (h : ∀ x ∈ l, p x = false) :
    remove_firstp p l = none := by
  induction l with
  | nil => rfl
  | cons x xs ih =>
    have hx := h x (List.mem_cons_self x xs)
    simp [remove_firstp, hx]
    exact ih (fun y hy => h y (List.mem_cons_of_mem x hy))

theorem remove_firstp_some_idx (p : α → Bool) (l : List α) (i : Nat)
    (h : firstMatchIdx p l = some i) :
    remove_firstp p l = some (l.take i ++ l.drop (i + 1)) := by
  induction l generalizing i with
  | nil => simp [firstMatchIdx] at h
  | cons x xs ih =>
    cases hpx : p x with
    | true =>
      simp [firstMatchIdx, hpx] at h
      subst h
      simp [remove_firstp, hpx]
    | false =>
      simp [firstMatchIdx, hpx] at h
      obtain ⟨j, hj, hji⟩ := h
      subst hji
      simp [remove_firstp, hpx, ih j hj]

theorem firstMatchIdx_some_lt (p : α → Bool) (l : List α) (i : Nat)
    (h : firstMatchIdx p l = some i) : i < l.length := by
  induction l generalizing i with
  | nil => simp [firstMatchIdx] at h
  | cons x xs ih =>
    cases hpx : p x with
    | true =>
      simp [firstMatchIdx, hpx] at h
      subst h
      simp
    | false =>
      simp [firstMatchIdx, hpx] at h
      obtain ⟨j, hj, hji⟩ := h
      have := ih j hj
      simp
      omega

end DoublyLinkedList

/-- Claim C8: for every OrderedList and value, removeByValue fails with
NotFound (none) when no element equals the value; otherwise it removes
exactly the first (lowest-index) element equal to the value — the result is
the take/drop splice around that index, which keeps every remaining element
in its relative order — and the length decreases by one. -/
theorem remove_valuebased_first_match (eq : α → α → Bool) (v : α) (l : List α) :
    ((∀ x ∈ l, eq x v = false) → DoublyLinkedList.remove_valuebased eq v l = none) ∧
    (∀ i, DoublyLinkedList.firstMatchIdx (fun x => eq x v) l = some i →
      DoublyLinkedList.remove_valuebased eq v l = some (l.take i ++ l.drop (i + 1)) ∧
      l.length = (l.take i ++ l.drop (i + 1)).length + 1) := by
  constructor
  · intro h
    exact DoublyLinkedList.remove_firstp_none _ _ h
  · intro i hi
    refine ⟨DoublyLinkedList.remove_firstp_some_idx _ _ _ hi, ?_⟩
    have hlt := DoublyLinkedList.firstMatchIdx_some_lt _ _ _ hi
    simp [List.length_take, List.length_drop]
    omega

/-- Claim C8 witness: on the list [4, 3, 5, 3] the value 3 first matches at
index 1, and removeByValue removes exactly that element. -/
theorem remove_valuebased_first_match_witness :
    DoublyLinkedList.firstMatchIdx (fun x => x == 3) ([4, 3, 5, 3] : List Nat) = some 1 ∧
    DoublyLinkedList.remove_valuebased (fun a b => a == b) 3 ([4, 3, 5, 3] : List Nat) =
      some (([4, 3, 5, 3] : List Nat).take 1 ++ ([4, 3, 5, 3] : List Nat).drop (1 + 1)) ∧
    ([4, 3, 5, 3] : List Nat).length =
      (([4, 3, 5, 3] : List Nat).take 1 ++ ([4, 3, 5, 3] : List Nat).drop (1 + 1)).length + 1 := by
  have h := (remove_valuebased_first_match (fun a b => a == b) 3 ([4, 3, 5, 3] : List Nat)).2
    1 (by decide)
  exact ⟨by decide, h.1, h.2⟩

namespace DoublyLinkedList

theorem remove_firstp_eq_none_iff (p : α → Bool) (l : List α) :
    remove_firstp p l = none ↔ ∀ x ∈ l, p x = false := by
  constructor
  · intro h x hx
    induction l with
    | nil => simp at hx
    | cons y ys ih =>
      cases hpy : p y with
      | true => simp [remove_firstp, hpy] at h
      | false =>
        simp [remove_firstp, hpy] at h
        rcases List.mem_cons.mp hx with hxy | hxs
        · subst hxy; exact hpy
        · exact ih h hxs
  · exact remove_firstp_none p l

theorem remove_firstp_isSome (p : α → Bool) (l : List α) (h : ∃ x ∈ l, p x = true) :
    ∃ l2, remove_firstp p l = some l2 := by
  cases hr : remove_firstp p l with
  | some l2 => exact ⟨l2, rfl⟩
  | none =>
    obtain ⟨x, hx, hpx⟩ := h
    have := (remove_firstp_eq_none_iff p l).mp hr x hx
    simp [hpx] at this

theorem remove_firstp_some_decomp (p : α → Bool) (l l2 : List α)
    (h : remove_firstp p l = some l2) :
    ∃ a l1 l3, l = l1 ++ a :: l3 ∧ l2 = l1 ++ l3 ∧ p a = true ∧ ∀ y ∈ l1, p y = false := by
  induction l generalizing l2 with
  | nil => simp [remove_firstp] at h
  | cons x xs ih =>
    cases hpx : p x with
    | true =>
      simp [remove_firstp, hpx] at h
      exact ⟨x, [], xs, by simp, by simp [h], hpx, by simp⟩
    | false =>
      simp [remove_firstp, hpx] at h
      obtain ⟨m, hm, hl2⟩ := h
      obtain ⟨a, l1, l3, hxs, hm2, hpa, hl1⟩ := ih m hm
      refine ⟨a, x :: l1, l3, by simp [hxs], by simp [← hl2, hm2], hpa, ?_⟩
      intro y hy
      rcases List.mem_cons.mp hy with hyx | hyl
      · subst hyx; exact hpx
      · exact hl1 y hyl

end DoublyLinkedList

theorem lookupFirst_eq_none_iff (k : Nat) (l : List (HashTableItem T)) :
    lookupFirst k l = none ↔ ∀ it ∈ l, it.key ≠ k := by
  induction l with
  | nil => simp [lookupFirst]
  | cons x xs ih =>
    cases hx : (x.key == k) with
    | true =>
      constructor
      · intro h; simp [lookupFirst, hx] at h
      · intro h; exact absurd (beq_iff_eq.mp hx) (h x (List.mem_cons_self x xs))
    | false =>
      simp only [lookupFirst, hx, if_neg Bool.false_ne_true]
      rw [ih]
      constructor
      · intro h it hit
        rcases List.mem_cons.mp hit with h1 | h2
        · subst h1; exact fun hk => by simp [hk] at hx
        · exact h it h2
      · intro h it hit; exact h it (List.mem_cons_of_mem x hit)

theorem lookupFirst_append (k : Nat) (l1 l2 : List (HashTableItem T)) :
    lookupFirst k (l1 ++ l2) =
      match lookupFirst k l1 with
      | some v => some v
      | none => lookupFirst k l2 := by
  induction l1 with
  | nil => simp [lookupFirst]
  | cons x xs ih =>
    cases hx : (x.key == k) with
    | true => simp [lookupFirst, hx]
    | false => simp [lookupFirst, hx, ih]

theorem lookupFirst_cons_ne (k : Nat) (x : HashTableItem T) (xs : List (HashTableItem T))
    (h : x.key ≠ k) : lookupFirst k (x :: xs) = lookupFirst k xs := by
  simp [lookupFirst, beq_eq_false_iff_ne.mpr h]

theorem any_iff_lookupFirst (k : Nat) (l : List (HashTableItem T)) :
    l.any (fun it => it.key == k) = true ↔ ∃ v, lookupFirst k l = some v := by
  induction l with
  | nil => simp [lookupFirst]
  | cons x xs ih =>
    cases hx : (x.key == k) with
    | true => simp [lookupFirst, hx]
    | false => simp [lookupFirst, hx, ih]

theorem listUpdateFirst_eq_none_iff (k : Nat) (f : T → T) (l : List (HashTableItem T)) :
    listUpdateFirst k f l = none ↔ ∀ it ∈ l, it.key ≠ k := by
  induction l with
  | nil => simp [listUpdateFirst]
  | cons x xs ih =>
    cases hx : (x.key == k) with
    | true =>
      constructor
      · intro h; simp [listUpdateFirst, hx] at h
      · intro h; exact absurd (beq_iff_eq.mp hx) (h x (List.mem_cons_self x xs))
    | false =>
      simp only [listUpdateFirst, hx, if_neg Bool.false_ne_true, Option.map_eq_none']
      rw [ih]
      constructor
      · intro h it hit
        rcases List.mem_cons.mp hit with h1 | h2
        · subst h1; exact fun hk => by simp [hk] at hx
        · exact h it h2
      · intro h it hit; exact h it (List.mem_cons_of_mem x hit)

theorem listUpdateFirst_some_decomp (k : Nat) (f : T → T) (l l2 : List (HashTableItem T))
    (h : listUpdateFirst k f l = some l2) :
    ∃ it l1 l3, l = l1 ++ it :: l3 ∧ it.key = k ∧ (∀ y ∈ l1, y.key ≠ k) ∧
      l2 = l1 ++ ⟨it.key, f it.value⟩ :: l3 := by
  induction l generalizing l2 with
  | nil => simp [listUpdateFirst] at h
  | cons x xs ih =>
    cases hx : (x.key == k) with
    | true =>
      simp [listUpdateFirst, hx] at h
      exact ⟨x, [], xs, by simp, beq_iff_eq.mp hx, by simp, by simp [← h]⟩
    | false =>
      simp [listUpdateFirst, hx] at h
      obtain ⟨m, hm, hl2⟩ := h
      obtain ⟨it, l1, l3, hxs, hk, hl1, hm2⟩ := ih m hm
      refine ⟨it, x :: l1, l3, by simp [hxs], hk, ?_, by simp [← hl2, hm2]⟩
      intro y hy
      rcases List.mem_cons.mp hy with hyx | hyl
      · subst hyx; exact fun hk2 => by simp [hk2] at hx
      · exact hl1 y hyl

theorem listUpdateFirst_keys (k : Nat) (f : T → T) (l l2 : List (HashTableItem T))
    (h : listUpdateFirst k f l = some l2) :
    l2.map (fun it => it.key) = l.map (fun it => it.key) := by
  obtain ⟨it, l1, l3, hl, _, _, hl2⟩ := listUpdateFirst_some_decomp k f l l2 h
  subst hl; subst hl2
  simp

theorem any_key_eq_of_map_eq (l1 l2 : List (HashTableItem T))
    (h : l1.map (fun it => it.key) = l2.map (fun it => it.key)) (q : Nat) :
    l1.any (fun it => it.key == q) = l2.any (fun it => it.key == q) := by
  have h1 : ∀ (l : List (HashTableItem T)),
      l.any (fun it => it.key == q) = (l.map (fun it => it.key)).any (fun x => x == q) := by
    intro l
    induction l with
    | nil => rfl
    | cons x xs ih => simp [ih]
  rw [h1, h1, h]

namespace HashTable

theorem contains_iff (t : HashTable T) (k : Nat) :
    t.contains k = true ↔ ∃ it ∈ t.bucketOf k, it.key = k := by
  simp [contains]

theorem contains_get (t : HashTable T) (k : Nat) (h : t.contains k = true) :
    ∃ v, t.get k = .ok v := by
  unfold contains at h
  rw [any_iff_lookupFirst] at h
  obtain ⟨v, hv⟩ := h
  exact ⟨v, by simp [get, hv]⟩

theorem updateFirst_ok_of_contains (t : HashTable T) (k : Nat) (f : T → T)
    (h : t.contains k = true) : ∃ t2, t.updateFirst k f = .ok t2 := by
  unfold updateFirst
  cases hl : listUpdateFirst k f (t.bucketOf k) with
  | some b2 => exact ⟨_, rfl⟩
  | none =>
    rw [listUpdateFirst_eq_none_iff] at hl
    obtain ⟨it, hit, hk⟩ := (contains_iff t k).mp h
    exact (hl it hit hk).elim

theorem updateFirst_ok_destruct (t t2 : HashTable T) (k : Nat) (f : T → T)
    (h : t.updateFirst k f = .ok t2) :
    ∃ b2, listUpdateFirst k f (t.bucketOf k) = some b2 ∧
      t2 = ⟨t.bucket_capacity,
        fun i => if i = hashFn t.bucket_capacity k then b2 else t.items_list i,
        t.keys_list, t.count⟩ := by
  unfold updateFirst at h
  cases hl : listUpdateFirst k f (t.bucketOf k) with
  | none => rw [hl] at h; simp at h
  | some b2 =>
    rw [hl] at h
    refine ⟨b2, rfl, ?_⟩
    injection h with h2
    exact h2.symm

theorem updateFirst_contains_eq (t t2 : HashTable T) (k : Nat) (f : T → T)
    (h : t.updateFirst k f = .ok t2) (q : Nat) : t2.contains q = t.contains q := by
  obtain ⟨b2, hb2, ht2⟩ := updateFirst_ok_destruct t t2 k f h
  subst ht2
  unfold contains bucketOf
  simp only
  by_cases hq : hashFn t.bucket_capacity q = hashFn t.bucket_capacity k
  · rw [if_pos hq, hq]
    exact any_key_eq_of_map_eq _ _ (listUpdateFirst_keys k f _ _ hb2) q
  · rw [if_neg hq]

theorem updateFirst_get_self (t t2 : HashTable T) (k : Nat) (f : T → T) (v : T)
    (h : t.updateFirst k f = .ok t2) (hv : t.get k = .ok v) : t2.get k = .ok (f v) := by
  obtain ⟨b2, hb2, ht2⟩ := updateFirst_ok_destruct t t2 k f h
  obtain ⟨it, l1, l3, hdec, hk, hl1, hb⟩ := listUpdateFirst_some_decomp k f _ b2 hb2
  have hlook : lookupFirst k (t.bucketOf k) = some it.value := by
    rw [hdec, lookupFirst_append]
    rw [(lookupFirst_eq_none_iff k l1).mpr hl1]
    simp [lookupFirst, beq_iff_eq.mpr hk]
  have hv2 : v = it.value := by
    unfold get at hv
    rw [hlook] at hv
    injection hv with hv
    exact hv.symm
  subst ht2
  unfold get bucketOf
  simp only
  rw [if_true, hb, lookupFirst_append]
  rw [(lookupFirst_eq_none_iff k l1).mpr hl1]
  simp [lookupFirst, beq_iff_eq.mpr hk, hv2]

theorem updateFirst_get_other (t t2 : HashTable T) (k : Nat) (f : T → T)
    (h : t.updateFirst k f = .ok t2) (q : Nat) (hq : q ≠ k) : t2.get q = t.get q := by
  obtain ⟨b2, hb2, ht2⟩ := updateFirst_ok_destruct t t2 k f h
  obtain ⟨it, l1, l3, hdec, hk, hl1, hb⟩ := listUpdateFirst_some_decomp k f _ b2 hb2
  subst ht2
  unfold get bucketOf
  simp only
  by_cases hh : hashFn t.bucket_capacity q = hashFn t.bucket_capacity k
  · rw [if_pos hh, hb, hh]
    have hbq : t.items_list (hashFn t.bucket_capacity k) = l1 ++ it :: l3 := hdec
    rw [hbq, lookupFirst_append, lookupFirst_append]
    have hmid1 : lookupFirst q (⟨it.key, f it.value⟩ :: l3) = lookupFirst q l3 :=
      lookupFirst_cons_ne q _ l3 (by simp [hk]; exact fun h2 => hq h2.symm)
    have hmid2 : lookupFirst q (it :: l3) = lookupFirst q l3 :=
      lookupFirst_cons_ne q _ l3 (by rw [hk]; exact fun h2 => hq h2.symm)
    rw [hmid1, hmid2]
  · rw [if_neg hh]

theorem remove_ok_destruct (t t2 : HashTable T) (k : Nat) (h : t.remove k = .ok t2) :
    t.contains k = true ∧
    ∃ b2 k2, DoublyLinkedList.remove_firstp (fun it => it.key == k) (t.bucketOf k) = some b2 ∧
      DoublyLinkedList.remove_valuebased (fun a b => a == b) k t.keys_list = some k2 ∧
      t2 = ⟨t.bucket_capacity,
        fun i => if i = hashFn t.bucket_capacity k then b2 else t.items_list i,
        k2, t.count - 1⟩ := by
  unfold remove at h
  by_cases hc : t.contains k = true
  · rw [if_pos hc] at h
    refine ⟨hc, ?_⟩
    cases h1 : DoublyLinkedList.remove_firstp (fun it => it.key == k) (t.bucketOf k) with
    | none => rw [h1] at h; simp at h
    | some b2 =>
      cases h2 : DoublyLinkedList.remove_valuebased (fun a b => a == b) k t.keys_list with
      | none => rw [h1, h2] at h; simp at h
      | some k2 =>
        rw [h1, h2] at h
        refine ⟨b2, k2, rfl, rfl, ?_⟩
        injection h with h3
        exact h3.symm
  · rw [if_neg hc] at h
    simp at h

theorem remove_ok_of_contains (t : HashTable T) (k : Nat) (hwf : t.WF)
    (h : t.contains k = true) : ∃ t2, t.remove k = .ok t2 := by
  unfold remove
  rw [if_pos h]
  obtain ⟨it, hit, hk⟩ := (contains_iff t k).mp h
  obtain ⟨b2, hb2⟩ := DoublyLinkedList.remove_firstp_isSome (fun it => it.key == k)
    (t.bucketOf k) ⟨it, hit, beq_iff_eq.mpr hk⟩
  have hmem : k ∈ t.keys_list := (hwf.mem_iff k).mpr ⟨it, hit, hk⟩
  obtain ⟨k2, hk2⟩ := DoublyLinkedList.remove_firstp_isSome (fun x => x == k)
    t.keys_list ⟨k, hmem, beq_self_eq_true k⟩
  rw [hb2]
  rw [show DoublyLinkedList.remove_valuebased (fun a b => a == b) k t.keys_list =
    DoublyLinkedList.remove_firstp (fun x => x == k) t.keys_list from rfl, hk2]
  exact ⟨_, rfl⟩

theorem remove_bucket_decomp (t t2 : HashTable T) (k : Nat) (h : t.remove k = .ok t2) :
    ∃ a l1 l3 k2, t.bucketOf k = l1 ++ a :: l3 ∧ a.key = k ∧ (∀ y ∈ l1, y.key ≠ k) ∧
      DoublyLinkedList.remove_valuebased (fun a b => a == b) k t.keys_list = some k2 ∧
      t2 = ⟨t.bucket_capacity,
        fun i => if i = hashFn t.bucket_capacity k then l1 ++ l3 else t.items_list i,
        k2, t.count - 1⟩ := by
  obtain ⟨hc, b2, k2, hb2, hk2, ht2⟩ := remove_ok_destruct t t2 k h
  obtain ⟨a, l1, l3, hdec, hb, hpa, hl1⟩ :=
    DoublyLinkedList.remove_firstp_some_decomp (fun it => it.key == k) _ b2 hb2
  refine ⟨a, l1, l3, k2, hdec, beq_iff_eq.mp hpa, ?_, hk2, by rw [ht2, hb]⟩
  intro y hy
  have := hl1 y hy
  simpa using this

theorem remove_contains_self (t t2 : HashTable T) (k : Nat) (hwf : t.WF)
    (h : t.remove k = .ok t2) : t2.contains k = false := by
  obtain ⟨a, l1, l3, k2, hdec, hak, hl1, hk2, ht2⟩ := remove_bucket_decomp t t2 k h
  have hpair : (t.bucketOf k).Pairwise (fun a b => a.key ≠ b.key) :=
    hwf.bucket_nodup (hashFn t.bucket_capacity k)
  rw [hdec, List.pairwise_append] at hpair
  have hcons := List.pairwise_cons.mp hpair.2.1
  subst ht2
  unfold contains bucketOf
  simp only
  rw [if_true, List.any_eq_false]
  intro it hit
  simp only [beq_iff_eq]
  rcases List.mem_append.mp hit with h1 | h2
  · exact hl1 it h1
  · intro he
    exact hcons.1 it h2 (hak.trans he.symm)

theorem remove_contains_other (t t2 : HashTable T) (k : Nat) (h : t.remove k = .ok t2)
    (q : Nat) (hq : q ≠ k) : t2.contains q = t.contains q := by
  obtain ⟨a, l1, l3, k2, hdec, hak, hl1, hk2, ht2⟩ := remove_bucket_decomp t t2 k h
  subst ht2
  unfold contains bucketOf
  simp only
  by_cases hh : hashFn t.bucket_capacity q = hashFn t.bucket_capacity k
  · rw [if_pos hh, hh]
    have hdec2 : t.items_list (hashFn t.bucket_capacity k) = l1 ++ a :: l3 := hdec
    rw [hdec2]
    simp only [List.any_append, List.any_cons]
    have : (a.key == q) = false := by
      simp only [beq_eq_false_iff_ne]
      rw [hak]
      exact fun he => hq he.symm
    rw [this]
    simp
  · rw [if_neg hh]

theorem remove_get_other (t t2 : HashTable T) (k : Nat) (h : t.remove k = .ok t2)
    (q : Nat) (hq : q ≠ k) : t2.get q = t.get q := by
  obtain ⟨a, l1, l3, k2, hdec, hak, hl1, hk2, ht2⟩ := remove_bucket_decomp t t2 k h
  subst ht2
  unfold get bucketOf
  simp only
  by_cases hh : hashFn t.bucket_capacity q = hashFn t.bucket_capacity k
  · rw [if_pos hh, hh]
    have hdec2 : t.items_list (hashFn t.bucket_capacity k) = l1 ++ a :: l3 := hdec
    rw [hdec2, lookupFirst_append, lookupFirst_append]
    have hmid : lookupFirst q (a :: l3) = lookupFirst q l3 :=
      lookupFirst_cons_ne q a l3 (by rw [hak]; exact fun he => hq he.symm)
    rw [hmid]
  · rw [if_neg hh]

theorem insert_ok_destruct (t t2 : HashTable T) (k : Nat) (v : T)
    (h : t.insert k v = .ok t2) :
    t.contains k = false ∧
    t2 = ⟨t.bucket_capacity,
      fun i => if i = hashFn t.bucket_capacity k then t.bucketOf k ++ [⟨k, v⟩] else t.items_list i,
      t.keys_list ++ [k], t.count + 1⟩ := by
  unfold insert at h
  by_cases hc : t.contains k = true
  · rw [if_pos hc] at h; simp at h
  · rw [if_neg hc] at h
    refine ⟨by simpa using hc, ?_⟩
    injection h with h2
    exact h2.symm

theorem wf_empty (T : Type) (cap : Nat) (hcap : 0 < cap) : (empty T cap).WF := by
  refine ⟨hcap, ?_, ?_, ?_, ?_, ?_⟩
  · intro i it hit; simp [empty] at hit
  · intro i; simp [empty]
  · simp [empty]
  · intro k; simp [empty, bucketOf]
  · simp [empty]

theorem wf_insert (t t2 : HashTable T) (k : Nat) (v : T) (hwf : t.WF)
    (h : t.insert k v = .ok t2) : t2.WF := by
  obtain ⟨hc, ht2⟩ := insert_ok_destruct t t2 k v h
  have hnotin : ∀ it ∈ t.bucketOf k, it.key ≠ k := by
    intro it hit he
    have hcc : t.contains k = true := (contains_iff t k).mpr ⟨it, hit, he⟩
    rw [hcc] at hc
    cases hc
  have hkeys : k ∉ t.keys_list := by
    intro hk
    obtain ⟨it, hit, he⟩ := (hwf.mem_iff k).mp hk
    exact hnotin it hit he
  subst ht2
  refine ⟨hwf.cap_pos, ?_, ?_, ?_, ?_, ?_⟩
  · intro i it hit
    simp only at hit ⊢
    by_cases hi : i = hashFn t.bucket_capacity k
    · rw [if_pos hi] at hit
      rcases List.mem_append.mp hit with h1 | h2
      · rw [hwf.placement (hashFn t.bucket_capacity k) it h1]
        exact hi.symm
      · simp at h2
        rw [h2]
        exact hi.symm
    · rw [if_neg hi] at hit
      exact hwf.placement i it hit
  · intro i
    simp only
    by_cases hi : i = hashFn t.bucket_capacity k
    · rw [if_pos hi]
      rw [List.pairwise_append]
      refine ⟨hwf.bucket_nodup _, by simp, ?_⟩
      intro a ha b hb
      simp at hb
      rw [hb]
      exact hnotin a ha
    · rw [if_neg hi]
      exact hwf.bucket_nodup i
  · simp only
    rw [List.nodup_append]
    refine ⟨hwf.keys_nodup, by simp, ?_⟩
    intro a ha hb
    simp at hb
    rw [hb] at ha
    exact hkeys ha
  · intro q
    simp only [List.mem_append, List.mem_singleton]
    unfold bucketOf
    simp only
    by_cases hq : hashFn t.bucket_capacity q = hashFn t.bucket_capacity k
    · rw [if_pos hq]
      have hbq2 : t.items_list (hashFn t.bucket_capacity q) =
          t.items_list (hashFn t.bucket_capacity k) := by
        rw [hq]
      constructor
      · rintro (hmem | rfl)
        · obtain ⟨it, hit, he⟩ := (hwf.mem_iff q).mp hmem
          have hit1 : it ∈ t.items_list (hashFn t.bucket_capacity q) := hit
          rw [hbq2] at hit1
          exact ⟨it, List.mem_append.mpr (Or.inl hit1), he⟩
        · exact ⟨⟨q, v⟩, List.mem_append.mpr (Or.inr (by simp)), rfl⟩
      · rintro ⟨it, hit, he⟩
        rcases List.mem_append.mp hit with h1 | h2
        · left
          apply (hwf.mem_iff q).mpr
          have h1b : it ∈ t.items_list (hashFn t.bucket_capacity q) := by
            rw [hbq2]
            exact h1
          exact ⟨it, h1b, he⟩
        · right
          simp at h2
          rw [h2] at he
          exact he.symm
    · rw [if_neg hq]
      have hqk : q ≠ k := fun he => hq (by rw [he])
      constructor
      · rintro (hmem | he)
        · exact (hwf.mem_iff q).mp hmem
        · exact (hqk he).elim
      · intro hex
        left
        exact (hwf.mem_iff q).mpr hex
  · simp only
    rw [hwf.count_eq]
    simp

theorem wf_updateFirst (t t2 : HashTable T) (k : Nat) (f : T → T) (hwf : t.WF)
    (h : t.updateFirst k f = .ok t2) : t2.WF := by
  obtain ⟨b2, hb2, ht2⟩ := updateFirst_ok_destruct t t2 k f h
  have hmap := listUpdateFirst_keys k f _ b2 hb2
  subst ht2
  refine ⟨hwf.cap_pos, ?_, ?_, hwf.keys_nodup, ?_, hwf.count_eq⟩
  · intro i it hit
    simp only at hit ⊢
    by_cases hi : i = hashFn t.bucket_capacity k
    · rw [if_pos hi] at hit
      have hkmem : it.key ∈ b2.map (fun it => it.key) := List.mem_map_of_mem _ hit
      rw [hmap] at hkmem
      obtain ⟨it2, hit2, he2⟩ := List.mem_map.mp hkmem
      rw [← he2]
      rw [hwf.placement (hashFn t.bucket_capacity k) it2 hit2]
      exact hi.symm
    · rw [if_neg hi] at hit
      exact hwf.placement i it hit
  · intro i
    simp only
    by_cases hi : i = hashFn t.bucket_capacity k
    · rw [if_pos hi]
      have h1 : ((t.bucketOf k).map (fun it => it.key)).Pairwise (fun a b => a ≠ b) :=
        (List.pairwise_map).mpr (hwf.bucket_nodup _)
      rw [← hmap] at h1
      exact (List.pairwise_map).mp h1
    · rw [if_neg hi]
      exact hwf.bucket_nodup i
  · intro q
    simp only
    unfold bucketOf
    simp only
    by_cases hq : hashFn t.bucket_capacity q = hashFn t.bucket_capacity k
    · rw [if_pos hq]
      rw [hwf.mem_iff q]
      have hbq2 : t.items_list (hashFn t.bucket_capacity q) =
          t.items_list (hashFn t.bucket_capacity k) := by
        rw [hq]
      constructor
      · rintro ⟨it, hit, he⟩
        have hit1 : it ∈ t.items_list (hashFn t.bucket_capacity q) := hit
        rw [hbq2] at hit1
        have hkmem : q ∈ (t.bucketOf k).map (fun it => it.key) := by
          rw [← he]
          exact List.mem_map_of_mem _ hit1
        rw [← hmap] at hkmem
        obtain ⟨it2, hit2, he2⟩ := List.mem_map.mp hkmem
        exact ⟨it2, hit2, he2⟩
      · rintro ⟨it, hit, he⟩
        have hkmem : q ∈ b2.map (fun it => it.key) := by
          rw [← he]
          exact List.mem_map_of_mem _ hit
        rw [hmap] at hkmem
        obtain ⟨it2, hit2, he2⟩ := List.mem_map.mp hkmem
        have hit3 : it2 ∈ t.items_list (hashFn t.bucket_capacity q) := by
          rw [hbq2]
          exact hit2
        exact ⟨it2, hit3, he2⟩
    · rw [if_neg hq]
      exact hwf.mem_iff q

theorem wf_remove (t t2 : HashTable T) (k : Nat) (hwf : t.WF) (h : t.remove k = .ok t2) :
    t2.WF := by
  obtain ⟨a, l1, l3, k2, hdec, hak, hl1, hk2, ht2⟩ := remove_bucket_decomp t t2 k h
  have hk2b : DoublyLinkedList.remove_firstp (fun x => x == k) t.keys_list = some k2 := hk2
  obtain ⟨x, m1, m3, hkeys, hk2eq, hpx, hm1⟩ :=
    DoublyLinkedList.remove_firstp_some_decomp (fun x => x == k) t.keys_list k2 hk2b
  have hxk : x = k := by simpa using hpx
  subst hxk
  have hnd : (m1 ++ x :: m3).Nodup := by
    rw [← hkeys]
    exact hwf.keys_nodup
  rw [List.nodup_append] at hnd
  obtain ⟨nd1, nd2, disj⟩ := hnd
  have hkm3 : x ∉ m3 := (List.nodup_cons.mp nd2).1
  have hkm1 : x ∉ m1 := fun hx => disj hx (List.mem_cons_self x m3)
  have hdecit : t.items_list (hashFn t.bucket_capacity x) = l1 ++ a :: l3 := hdec
  have hbp : (l1 ++ a :: l3).Pairwise (fun a b => a.key ≠ b.key) := by
    have hb := hwf.bucket_nodup (hashFn t.bucket_capacity x)
    rwa [hdecit] at hb
  rw [List.pairwise_append] at hbp
  have hal3 : ∀ y ∈ l3, a.key ≠ y.key := (List.pairwise_cons.mp hbp.2.1).1
  have hpl3 : l3.Pairwise (fun a b => a.key ≠ b.key) := (List.pairwise_cons.mp hbp.2.1).2
  subst ht2
  refine ⟨hwf.cap_pos, ?_, ?_, ?_, ?_, ?_⟩
  · intro i it hit
    simp only at hit ⊢
    by_cases hi : i = hashFn t.bucket_capacity x
    · rw [if_pos hi] at hit
      have hit2 : it ∈ l1 ++ a :: l3 := by
        rcases List.mem_append.mp hit with h1 | h2
        · exact List.mem_append.mpr (Or.inl h1)
        · exact List.mem_append.mpr (Or.inr (List.mem_cons_of_mem a h2))
      have hpl := hwf.placement (hashFn t.bucket_capacity x) it (by rw [hdecit]; exact hit2)
      rw [hi]
      exact hpl
    · rw [if_neg hi] at hit
      exact hwf.placement i it hit
  · intro i
    simp only
    by_cases hi : i = hashFn t.bucket_capacity x
    · rw [if_pos hi]
      rw [List.pairwise_append]
      exact ⟨hbp.1, hpl3, fun y hy z hz => hbp.2.2 y hy z (List.mem_cons_of_mem a hz)⟩
    · rw [if_neg hi]
      exact hwf.bucket_nodup i
  · simp only
    rw [hk2eq, List.nodup_append]
    exact ⟨nd1, (List.nodup_cons.mp nd2).2, fun y hy hz => disj hy (List.mem_cons_of_mem x hz)⟩
  · intro q
    simp only
    unfold bucketOf
    simp only
    rw [hk2eq]
    by_cases hqk : q = x
    · subst hqk
      constructor
      · intro hmem
        rcases List.mem_append.mp hmem with h1 | h2
        · exact (hkm1 h1).elim
        · exact (hkm3 h2).elim
      · rintro ⟨it, hit, he⟩
        rw [if_pos rfl] at hit
        rcases List.mem_append.mp hit with h1 | h2
        · exact (hl1 it h1 he).elim
        · exact (hal3 it h2 (hak.trans he.symm)).elim
    · have hmemq : q ∈ m1 ++ m3 ↔ q ∈ t.keys_list := by
        rw [hkeys]
        simp [List.mem_append, List.mem_cons, hqk]
      rw [hmemq, hwf.mem_iff q]
      by_cases hh : hashFn t.bucket_capacity q = hashFn t.bucket_capacity x
      · rw [if_pos hh]
        have hdec2 : t.items_list (hashFn t.bucket_capacity q) = l1 ++ a :: l3 := by
          rw [hh]
          exact hdecit
        constructor
        · rintro ⟨it, hit, he⟩
          have hit1 : it ∈ l1 ++ a :: l3 := by
            have hit0 : it ∈ t.items_list (hashFn t.bucket_capacity q) := hit
            rwa [hdec2] at hit0
          rcases List.mem_append.mp hit1 with h1 | h2
          · exact ⟨it, List.mem_append.mpr (Or.inl h1), he⟩
          · rcases List.mem_cons.mp h2 with h3 | h4
            · rw [h3] at he
              exact (hqk (he.symm.trans hak)).elim
            · exact ⟨it, List.mem_append.mpr (Or.inr h4), he⟩
        · rintro ⟨it, hit, he⟩
          rcases List.mem_append.mp hit with h1 | h2
          · have hit1 : it ∈ l1 ++ a :: l3 := List.mem_append.mpr (Or.inl h1)
            rw [← hdec2] at hit1
            exact ⟨it, hit1, he⟩
          · have hit1 : it ∈ l1 ++ a :: l3 :=
              List.mem_append.mpr (Or.inr (List.mem_cons_of_mem a h2))
            rw [← hdec2] at hit1
            exact ⟨it, hit1, he⟩
      · rw [if_neg hh]
        exact Iff.rfl
  · simp only
    rw [hk2eq, hwf.count_eq, hkeys]
    simp

end HashTable

theorem wf_applyLedgerOp (t : HashTable T) (op : LedgerOp T) (hwf : t.WF) :
    (applyLedgerOp t op).WF := by
  cases op with
  | ins k v =>
    simp only [applyLedgerOp]
    cases hi : t.insert k v with
    | ok t2 => exact HashTable.wf_insert t t2 k v hwf hi
    | error e => exact hwf
  | rem k =>
    simp only [applyLedgerOp]
    cases hr : t.remove k with
    | ok t2 => exact HashTable.wf_remove t t2 k hwf hr
    | error e => exact hwf

theorem wf_applyLedgerOps (t : HashTable T) (ops : List (LedgerOp T)) (hwf : t.WF) :
    (applyLedgerOps t ops).WF := by
  induction ops generalizing t with
  | nil => exact hwf
  | cons op rest ih => exact ih (applyLedgerOp t op) (wf_applyLedgerOp t op hwf)

/-- Claim C7: for every sequence of insert/remove operations on the Ledger
starting from an empty table of positive bucket capacity, length() equals
the number of keys currently present — the key list enumerates exactly the
present keys, each exactly once — keys() has exactly length() elements, and
every key present in the bucket structure appears exactly once in the
insertion-ordered key list and vice versa (key list without duplicates,
each bucket without duplicate keys, and items only in the bucket their key
hashes to). -/
theorem ledger_insert_remove_invariants (T : Type) (cap : Nat) (hcap : 0 < cap)
    (ops : List (LedgerOp T)) :
    (applyLedgerOps (HashTable.empty T cap) ops).length =
      (applyLedgerOps (HashTable.empty T cap) ops).keys.length ∧
    (applyLedgerOps (HashTable.empty T cap) ops).keys.Nodup ∧
    (∀ k, k ∈ (applyLedgerOps (HashTable.empty T cap) ops).keys ↔
      ∃ i, ∃ it ∈ (applyLedgerOps (HashTable.empty T cap) ops).items_list i, it.key = k) ∧
    (∀ i, ((applyLedgerOps (HashTable.empty T cap) ops).items_list i).Pairwise
      (fun a b => a.key ≠ b.key)) ∧
    (∀ i, ∀ it ∈ (applyLedgerOps (HashTable.empty T cap) ops).items_list i,
      hashFn (applyLedgerOps (HashTable.empty T cap) ops).bucket_capacity it.key = i) := by
  have hwf := wf_applyLedgerOps (HashTable.empty T cap) ops (HashTable.wf_empty T cap hcap)
  refine ⟨hwf.count_eq, hwf.keys_nodup, ?_, hwf.bucket_nodup, hwf.placement⟩
  intro k
  constructor
  · intro hk
    obtain ⟨it, hit, he⟩ := (hwf.mem_iff k).mp hk
    exact ⟨hashFn (applyLedgerOps (HashTable.empty T cap) ops).bucket_capacity k, it, hit, he⟩
  · rintro ⟨i, it, hit, he⟩
    apply (hwf.mem_iff k).mpr
    have hp := hwf.placement i it hit
    refine ⟨it, ?_, he⟩
    show it ∈ (applyLedgerOps (HashTable.empty T cap) ops).items_list
      (hashFn (applyLedgerOps (HashTable.empty T cap) ops).bucket_capacity k)
    rw [← he, hp]
    exact hit

/-- Claim C7 witness: a concrete operation sequence with a duplicate insert
and a missing remove, evaluated at the default capacity. -/
theorem ledger_insert_remove_invariants_witness :
    0 < 65536 ∧
    (applyLedgerOps (HashTable.empty Nat 65536) ledgerOpsEx).length =
      (applyLedgerOps (HashTable.empty Nat 65536) ledgerOpsEx).keys.length ∧
    (2 ∈ (applyLedgerOps (HashTable.empty Nat 65536) ledgerOpsEx).keys ↔
      ∃ i, ∃ it ∈ (applyLedgerOps (HashTable.empty Nat 65536) ledgerOpsEx).items_list i,
        it.key = 2) := by
  have h := ledger_insert_remove_invariants Nat 65536 (by decide) ledgerOpsEx
  exact ⟨by decide, h.1, h.2.2.1 2⟩

set_option maxRecDepth 100000

theorem HashTable.updateFirst_not_contains (t : HashTable T) (k : Nat) (f : T → T)
    (h : t.contains k = false) : t.updateFirst k f = .error .keyNotFound := by
  unfold updateFirst
  have hn : listUpdateFirst k f (t.bucketOf k) = none := by
    rw [listUpdateFirst_eq_none_iff]
    intro it hit he
    have hc := (contains_iff t k).mpr ⟨it, hit, he⟩
    rw [h] at hc
    cases hc
  rw [hn]

theorem HashTable.insert_duplicate (t : HashTable T) (k : Nat) (v : T)
    (h : t.contains k = true) : t.insert k v = .error .duplicateKey := by
  unfold insert
  rw [if_pos h]

/-- Claim C10: a request with the RequestType::None kind matches no switch
case in Bank::request, so the call succeeds (no error) and the whole Bank
state is unchanged. -/
theorem request_none_noop (b : Bank) (k a : Nat) :
    b.request k RequestType.None a = (none, b) := rfl

/-- Claim C6: immediately after any update_accounts_loans call — the batch
accepted, rejected, or the queue already empty — pending_loans is false. -/
theorem update_accounts_loans_clears_pending (b : Bank) :
    (b.update_accounts_loans).2.pending_loans = false := by
  unfold Bank.update_accounts_loans
  by_cases h : b.new_loans.length = 0
  · rw [if_pos h]
    simp only [Bank.pending_loans]
    simp [List.length_eq_zero.mp h]
  · rw [if_neg h]
    simp only [Bank.pending_loans]
    cases b.are_safe_loans <;> simp

/-- Claim C5: whenever update_accounts_loans rejects the batch (returns
false), the bank-wide budget, the ledger and the operations queue are
exactly as before the call, and the pending-loan queue is emptied. -/
theorem update_accounts_loans_rejected_frame (b : Bank)
    (h : (b.update_accounts_loans).1 = false) :
    (b.update_accounts_loans).2.bank_budget = b.bank_budget ∧
    (b.update_accounts_loans).2.accounts_budget = b.accounts_budget ∧
    (b.update_accounts_loans).2.new_operations = b.new_operations ∧
    (b.update_accounts_loans).2.new_loans = [] := by
  unfold Bank.update_accounts_loans at h ⊢
  by_cases he : b.new_loans.length = 0
  · rw [if_pos he] at h
    cases h
  · rw [if_neg he] at h ⊢
    simp only at h ⊢
    cases hs : b.are_safe_loans with
    | true => rw [hs] at h; cases h
    | false => simp

/-- Claim C5 witness: a bank with budget 10 and one pending loan of 20 has
its batch rejected and only the loan queue changes. -/
theorem update_accounts_loans_rejected_frame_witness :
    (bankLoanRejEx.update_accounts_loans).1 = false ∧
    ((bankLoanRejEx.update_accounts_loans).2.bank_budget = bankLoanRejEx.bank_budget ∧
      (bankLoanRejEx.update_accounts_loans).2.accounts_budget = bankLoanRejEx.accounts_budget ∧
      (bankLoanRejEx.update_accounts_loans).2.new_operations = bankLoanRejEx.new_operations ∧
      (bankLoanRejEx.update_accounts_loans).2.new_loans = []) :=
  ⟨by decide, update_accounts_loans_rejected_frame bankLoanRejEx (by decide)⟩

/-- Claim C9: Bank::request increases the bank-wide budget before touching
the ledger, so a Deposit on an absent key fails with KeyNotFound and an
OpenAccount on an existing key fails with DuplicateKey with the budget
already increased (uint64 addition) — a failed request is not atomic. -/
theorem request_failure_not_atomic (b : Bank) (k a : Nat) :
    (b.accounts_budget.contains k = false →
      b.request k RequestType.Deposit a =
        (some BankErr.keyNotFound, { b with bank_budget := add64 b.bank_budget a })) ∧
    (b.accounts_budget.contains k = true →
      b.request k RequestType.OpenAccount a =
        (some BankErr.duplicateKey, { b with bank_budget := add64 b.bank_budget a })) := by
  constructor
  · intro h
    unfold Bank.request
    simp only
    rw [HashTable.updateFirst_not_contains _ _ _ h]
  · intro h
    unfold Bank.request
    simp only
    rw [HashTable.insert_duplicate _ _ _ h]

/-- Claim C9 witness: in a bank holding exactly account 2, a Deposit to the
absent key 1 and an OpenAccount of the present key 2 both fail after the
budget increase. -/
theorem request_failure_not_atomic_witness :
    (bankReqEx.accounts_budget.contains 1 = false ∧
      bankReqEx.request 1 RequestType.Deposit 7 =
        (some BankErr.keyNotFound, { bankReqEx with bank_budget := add64 bankReqEx.bank_budget 7 })) ∧
    (bankReqEx.accounts_budget.contains 2 = true ∧
      bankReqEx.request 2 RequestType.OpenAccount 9 =
        (some BankErr.duplicateKey, { bankReqEx with bank_budget := add64 bankReqEx.bank_budget 9 })) := by
  constructor
  · exact ⟨by decide, (request_failure_not_atomic bankReqEx 1 7).1 (by decide)⟩
  · exact ⟨by decide, (request_failure_not_atomic bankReqEx 2 9).2 (by decide)⟩

/-- Claim C3: with budget 100, loan rate 0.1 and pending loans 60 and 50
the batch is accepted and the final budget is 111; the safety pass
dispenses 60 taking the working budget from 100 to 106 and then 50 taking
it from 106 to 111. -/
theorem loan_batch_100_accepted :
    bankLoanEx1.update_accounts_loans.1 = true ∧
    bankLoanEx1.update_accounts_loans.2.bank_budget = 111 ∧
    bankLoanEx1.update_accounts_loans.2.new_loans = [] ∧
    addLoanInterest bankLoanEx1.loan_interest 100 60 = 106 ∧
    addLoanInterest bankLoanEx1.loan_interest 106 50 = 111 ∧
    scanPass bankLoanEx1.loan_interest [(⟨1, 60⟩, false), (⟨2, 50⟩, false)] 100 =
      ([(⟨1, 60⟩, true), (⟨2, 50⟩, true)], 111, true) := by
  decide

/-- Claim C4 counterexample: the claimed working budget 10.5 never occurs:
the working budget of _are_safe_loans is a uint64, so dispensing the 5 loan
stores trunc(10 + 0.5) = 10 — the budget after the first scan is 10, and
twice it is 20, not 21 as a value of 10.5 would give. -/
theorem loan_batch_10_working_budget_stays_integral :
    (scanPass bankLoanEx2.loan_interest [(⟨1, 20⟩, false), (⟨2, 5⟩, false)] 10).2.1 = 10 ∧
    2 * (scanPass bankLoanEx2.loan_interest [(⟨1, 20⟩, false), (⟨2, 5⟩, false)] 10).2.1 ≠ 21 := by
  decide

/-- Claim C4 amended: with budget 10, rate 0.1 and pending loans 20 and 5
the batch is rejected, the budget is unchanged at 10 and the queue is
cleared; the first scan dispenses only the 5 loan and leaves the working
budget at 10 (the uint64 truncation of 10.5), and the second scan — with
the 20 loan still exceeding the budget — dispenses nothing. -/
theorem loan_batch_10_rejected :
    bankLoanEx2.update_accounts_loans.1 = false ∧
    bankLoanEx2.update_accounts_loans.2.bank_budget = 10 ∧
    bankLoanEx2.update_accounts_loans.2.new_loans = [] ∧
    scanPass bankLoanEx2.loan_interest [(⟨1, 20⟩, false), (⟨2, 5⟩, false)] 10 =
      ([(⟨1, 20⟩, false), (⟨2, 5⟩, true)], 10, true) ∧
    scanPass bankLoanEx2.loan_interest [(⟨1, 20⟩, false), (⟨2, 5⟩, true)] 10 =
      ([(⟨1, 20⟩, false), (⟨2, 5⟩, true)], 10, false) := by
  decide

theorem w64_eq : w64 = 18446744073709551616 := by norm_num [w64]

theorem sub64_of_le (x y : Nat) (hx : x < w64) (hy : y ≤ x) : sub64 x y = x - y := by
  have hw := w64_eq
  unfold sub64
  have h1 : y % w64 = y := Nat.mod_eq_of_lt (by omega)
  rw [h1]
  have h2 : x + (w64 - y) = w64 + (x - y) := by omega
  rw [h2, Nat.add_mod_left]
  exact Nat.mod_eq_of_lt (by omega)

theorem opsTotal_cons (op : NewOperation) (rest : List NewOperation) :
    opsTotal (op :: rest) = op.new_request_budget + opsTotal rest := by
  simp [opsTotal]

theorem runOps_budget (ops : List NewOperation) (budget : Nat) (tbl : HashTable Nat)
    (hb : budget < w64) (hs : opsTotal ops ≤ budget) :
    budget - opsTotal ops ≤ (runOps ops budget tbl).1 ∧
    (runOps ops budget tbl).1 ≤ budget ∧
    ((runOps ops budget tbl).2.2 = true → (runOps ops budget tbl).1 = budget - opsTotal ops) := by
  induction ops generalizing budget tbl with
  | nil => simp [runOps, opsTotal]
  | cons op rest ih =>
    have hop : op.new_request_budget ≤ budget := by
      rw [opsTotal_cons] at hs
      omega
    have hsub : sub64 budget op.new_request_budget = budget - op.new_request_budget :=
      sub64_of_le _ _ hb hop
    have hb2 : budget - op.new_request_budget < w64 := by omega
    have hs2 : opsTotal rest ≤ budget - op.new_request_budget := by
      rw [opsTotal_cons] at hs
      omega
    have key : ∀ t2 : HashTable Nat,
        budget - opsTotal (op :: rest) ≤
          (runOps rest (sub64 budget op.new_request_budget) t2).1 ∧
        (runOps rest (sub64 budget op.new_request_budget) t2).1 ≤ budget ∧
        ((runOps rest (sub64 budget op.new_request_budget) t2).2.2 = true →
          (runOps rest (sub64 budget op.new_request_budget) t2).1 =
            budget - opsTotal (op :: rest)) := by
      intro t2
      rw [hsub]
      obtain ⟨ih1, ih2, ih3⟩ := ih (budget - op.new_request_budget) t2 hb2 hs2
      rw [opsTotal_cons]
      refine ⟨by omega, by omega, ?_⟩
      intro hok
      rw [ih3 hok]
      omega
    have hfail :
        budget - opsTotal (op :: rest) ≤ sub64 budget op.new_request_budget ∧
        sub64 budget op.new_request_budget ≤ budget ∧
        (false = true → sub64 budget op.new_request_budget = budget - opsTotal (op :: rest)) := by
      rw [hsub, opsTotal_cons]
      refine ⟨by omega, by omega, ?_⟩
      intro hok
      cases hok
    simp only [runOps]
    cases hty : op.new_request_type with
    | CloseAccount =>
      cases hr : tbl.remove op.key with
      | ok t2 => exact key t2
      | error e => exact hfail
    | Withdraw =>
      cases hr : tbl.updateFirst op.key (fun v => sub64 v op.new_request_budget) with
      | ok t2 => exact key t2
      | error e => exact hfail
    | OpenAccount => exact key tbl
    | Deposit => exact key tbl
    | Loan => exact key tbl
    | None => exact key tbl

theorem foldl_add64_eq (ops : List NewOperation) (acc : Nat) (h : acc + opsTotal ops < w64) :
    ops.foldl (fun n op => add64 n op.new_request_budget) acc = acc + opsTotal ops := by
  induction ops generalizing acc with
  | nil => simp [opsTotal]
  | cons op rest ih =>
    rw [List.foldl_cons]
    rw [opsTotal_cons] at h
    have ha : add64 acc op.new_request_budget = acc + op.new_request_budget := by
      unfold add64
      exact Nat.mod_eq_of_lt (by omega)
    rw [ha, ih (acc + op.new_request_budget) (by omega), opsTotal_cons]
    omega

theorem are_safe_operations_iff (b : Bank) (hs : opsTotal b.new_operations < w64) :
    b.are_safe_operations = true ↔ opsTotal b.new_operations ≤ b.bank_budget := by
  unfold Bank.are_safe_operations
  rw [foldl_add64_eq b.new_operations 0 (by simpa using hs)]
  simp

theorem update_ops_destruct (b : Bank) :
    (b.new_operations = [] ∧ b.update_accounts_operations = (some true, b)) ∨
    (b.new_operations ≠ [] ∧ b.are_safe_operations = false ∧
      b.update_accounts_operations = (some false, { b with new_operations := [] })) ∨
    (b.new_operations ≠ [] ∧ b.are_safe_operations = true ∧
      (((runOps b.new_operations b.bank_budget b.accounts_budget).2.2 = true ∧
        b.update_accounts_operations = (some true, { b with bank_budget := (runOps b.new_operations b.bank_budget b.accounts_budget).1, accounts_budget := (runOps b.new_operations b.bank_budget b.accounts_budget).2.1, new_operations := ([] : List NewOperation) })) ∨
       ((runOps b.new_operations b.bank_budget b.accounts_budget).2.2 = false ∧
        b.update_accounts_operations = (none, { b with bank_budget := (runOps b.new_operations b.bank_budget b.accounts_budget).1, accounts_budget := (runOps b.new_operations b.bank_budget b.accounts_budget).2.1 })))) := by
  unfold Bank.update_accounts_operations
  by_cases hne : b.new_operations.length = 0
  · left
    exact ⟨List.length_eq_zero.mp hne, by rw [if_pos hne]⟩
  · have hne2 : b.new_operations ≠ [] := by
      intro he
      rw [he] at hne
      exact hne rfl
    rw [if_neg hne]
    cases hsafe : b.are_safe_operations with
    | false =>
      right; left
      exact ⟨hne2, rfl, by simp⟩
    | true =>
      right; right
      refine ⟨hne2, rfl, ?_⟩
      rcases hrun : runOps b.new_operations b.bank_budget b.accounts_budget with ⟨bud, tbl, ok⟩
      cases ok with
      | true =>
        left
        exact ⟨rfl, by simp⟩
      | false =>
        right
        exact ⟨rfl, by simp⟩

/-- Claim C1 amended: for every reachable Bank state the bank-wide budget
never goes below zero in exact integer arithmetic provided the uint64
arithmetic does not wrap, i.e. when the exact sum of the pending operation
amounts fits in a uint64: a batch whose exact sum exceeds the budget is
rejected and leaves the state untouched apart from clearing the queue,
while an accepted batch keeps the budget between budget − total ≥ 0 and
budget at every point, reaching exactly budget − total when the loop
completes; request never subtracts from the budget (it adds the amount or
leaves it unchanged) and update_interests never touches it.  The
per-account half of the original claim is false: an accepted Withdraw may
drive an account's exact balance below zero through uint64 wrap-around, and
with wrapping sums even the bank-wide budget can wrap. -/
theorem bank_budget_no_underflow (b : Bank) (_hr : Reachable b) (hb : b.bank_budget < w64)
    (hw : opsTotal b.new_operations < w64) :
    (opsTotal b.new_operations ≤ b.bank_budget →
      b.are_safe_operations = true ∧
      b.bank_budget - opsTotal b.new_operations ≤ (b.update_accounts_operations).2.bank_budget ∧
      (b.update_accounts_operations).2.bank_budget ≤ b.bank_budget ∧
      ((b.update_accounts_operations).1 = some true →
        (b.update_accounts_operations).2.bank_budget = b.bank_budget - opsTotal b.new_operations)) ∧
    (b.bank_budget < opsTotal b.new_operations →
      b.update_accounts_operations = (some false, { b with new_operations := [] })) ∧
    (∀ k t a, (b.request k t a).2.bank_budget = b.bank_budget ∨
      (b.request k t a).2.bank_budget = add64 b.bank_budget a) ∧
    (b.update_interests).1.bank_budget = b.bank_budget := by
  refine ⟨?_, ?_, ?_, rfl⟩
  · intro hle
    have hsafe : b.are_safe_operations = true := (are_safe_operations_iff b hw).mpr hle
    refine ⟨hsafe, ?_⟩
    obtain ⟨h1, h2, h3⟩ := runOps_budget b.new_operations b.bank_budget b.accounts_budget hb hle
    rcases update_ops_destruct b with ⟨hemp, heq⟩ | ⟨hne, hsf, heq⟩ | ⟨hne, hsf, ⟨hok, heq⟩ | ⟨hok, heq⟩⟩
    · rw [heq, hemp]
      simp [opsTotal]
    · rw [hsf] at hsafe
      cases hsafe
    · rw [heq]
      simp only
      exact ⟨h1, h2, fun _ => h3 hok⟩
    · rw [heq]
      simp only
      refine ⟨h1, h2, ?_⟩
      intro hcon
      cases hcon
  · intro hgt
    have hsafe : b.are_safe_operations = false := by
      cases hcs : b.are_safe_operations with
      | false => rfl
      | true =>
        have := (are_safe_operations_iff b hw).mp hcs
        omega
    rcases update_ops_destruct b with ⟨hemp, heq⟩ | ⟨hne, hsf, heq⟩ | ⟨hne, hsf, hrest⟩
    · rw [hemp] at hgt
      simp [opsTotal] at hgt
    · exact heq
    · rw [hsf] at hsafe
      cases hsafe
  · intro k t a
    cases t with
    | OpenAccount =>
      right
      unfold Bank.request
      simp only
      cases hi : b.accounts_budget.insert k a with
      | ok t2 => rfl
      | error e => rfl
    | Deposit =>
      right
      unfold Bank.request
      simp only
      cases hi : b.accounts_budget.updateFirst k (fun v => add64 v a) with
      | ok t2 => rfl
      | error e => rfl
    | CloseAccount => left; rfl
    | Withdraw => left; rfl
    | Loan => left; rfl
    | None => left; rfl

/-- Claim C1 counterexample: two reachable states violate the claim.  In
the first, account 1 is opened with 5 and a withdrawal of 50 from it is
accepted (the aggregate check 50 ≤ 105 passes), leaving the account's
uint64 budget at 2^64 − 45 — the exact value 5 − 50 = −45 went below zero
by unsigned wrap-around.  In the second, two withdrawals of 2^63 from
empty accounts are accepted out of a bank budget of 0 because the uint64
sum of the amounts wraps to 0, and the bank-wide budget itself wraps to
2^63 after the first subtraction — an operation that makes values negative
is applied. -/
theorem bank_nonnegativity_counterexample :
    Reachable bankWithdrawWrap ∧
    bankWithdrawWrap.get_account_budget 1 = .ok (w64 - 45) ∧
    (5 : Nat) < 50 ∧
    Reachable bankBudgetWrap ∧
    bankBudgetWrap.update_accounts_operations.1 = some true ∧
    bankBudgetWrap.bank_budget = 0 ∧
    opsTotal bankBudgetWrap.new_operations = 2 ^ 64 ∧
    (runOps [⟨1, .Withdraw, 2 ^ 63⟩] bankBudgetWrap.bank_budget
      bankBudgetWrap.accounts_budget).1 = 2 ^ 63 := by
  refine ⟨⟨100, withdrawWrapActs, rfl⟩, by decide, by decide, ⟨0, budgetWrapActs, rfl⟩,
    by decide, by decide, by decide, by decide⟩

/-- Claim C1 witness: a reachable bank with budget 105 and one pending
withdrawal of 3 satisfies the hypotheses, and the batch commits to budget
102. -/
theorem bank_budget_no_underflow_witness :
    (bankReachOps.bank_budget < w64 ∧ opsTotal bankReachOps.new_operations < w64 ∧
      opsTotal bankReachOps.new_operations ≤ bankReachOps.bank_budget) ∧
    (bankReachOps.are_safe_operations = true ∧
      bankReachOps.bank_budget - opsTotal bankReachOps.new_operations ≤
        (bankReachOps.update_accounts_operations).2.bank_budget ∧
      (bankReachOps.update_accounts_operations).2.bank_budget ≤ bankReachOps.bank_budget ∧
      ((bankReachOps.update_accounts_operations).1 = some true →
        (bankReachOps.update_accounts_operations).2.bank_budget =
          bankReachOps.bank_budget - opsTotal bankReachOps.new_operations)) :=
  ⟨⟨by decide, by decide, by decide⟩,
    (bank_budget_no_underflow bankReachOps ⟨100, reachOpsActs, rfl⟩ (by decide)
      (by decide)).1 (by decide)⟩

theorem runOps_spec (ops : List NewOperation) (budget : Nat) (tbl : HashTable Nat)
    (hk : (ops.map (fun op => op.key)).Nodup)
    (hp : ∀ op ∈ ops, tbl.contains op.key = true)
    (hwf : tbl.WF) :
    (runOps ops budget tbl).2.2 = true ∧
    (runOps ops budget tbl).2.1.WF ∧
    (∀ q, q ∉ ops.map (fun op => op.key) →
      (runOps ops budget tbl).2.1.contains q = tbl.contains q ∧
      (runOps ops budget tbl).2.1.get q = tbl.get q) ∧
    (∀ o ∈ ops,
      (o.new_request_type = RequestType.CloseAccount →
        (runOps ops budget tbl).2.1.contains o.key = false) ∧
      (o.new_request_type = RequestType.Withdraw → ∀ v, tbl.get o.key = .ok v →
        (runOps ops budget tbl).2.1.get o.key = .ok (sub64 v o.new_request_budget))) := by
  induction ops generalizing budget tbl with
  | nil =>
    exact ⟨rfl, hwf, fun q _ => ⟨rfl, rfl⟩, fun o ho => absurd ho (List.not_mem_nil o)⟩
  | cons op rest ih =>
    rw [List.map_cons, List.nodup_cons] at hk
    obtain ⟨hkey, hkrest⟩ := hk
    have hpop : tbl.contains op.key = true := hp op (List.mem_cons_self op rest)
    have hrestkeys : ∀ o ∈ rest, o.key ≠ op.key := by
      intro o ho he
      apply hkey
      rw [← he]
      exact List.mem_map_of_mem _ ho
    simp only [runOps]
    cases hty : op.new_request_type with
    | CloseAccount =>
      cases hrem : tbl.remove op.key with
      | error e =>
        obtain ⟨t2, ht2⟩ := HashTable.remove_ok_of_contains tbl op.key hwf hpop
        rw [ht2] at hrem
        cases hrem
      | ok t2 =>
        have hwf2 := HashTable.wf_remove tbl t2 op.key hwf hrem
        have hcont2 : ∀ o ∈ rest, t2.contains o.key = true := by
          intro o ho
          rw [HashTable.remove_contains_other tbl t2 op.key hrem o.key (hrestkeys o ho)]
          exact hp o (List.mem_cons_of_mem op ho)
        obtain ⟨ihok, ihwf, ihpres, iheff⟩ :=
          ih (sub64 budget op.new_request_budget) t2 hkrest hcont2 hwf2
        refine ⟨ihok, ihwf, ?_, ?_⟩
        · intro q hq
          rw [List.map_cons, List.mem_cons] at hq
          push_neg at hq
          obtain ⟨hpres1, hpres2⟩ := ihpres q hq.2
          constructor
          · rw [hpres1, HashTable.remove_contains_other tbl t2 op.key hrem q hq.1]
          · rw [hpres2, HashTable.remove_get_other tbl t2 op.key hrem q hq.1]
        · intro o ho
          rcases List.mem_cons.mp ho with rfl | ho2
          · constructor
            · intro _
              rw [(ihpres o.key hkey).1]
              exact HashTable.remove_contains_self tbl t2 o.key hwf hrem
            · intro hwdr
              rw [hty] at hwdr
              cases hwdr
          · obtain ⟨he1, he2⟩ := iheff o ho2
            refine ⟨he1, ?_⟩
            intro hwd v hv
            apply he2 hwd v
            rw [HashTable.remove_get_other tbl t2 op.key hrem o.key (hrestkeys o ho2)]
            exact hv
    | Withdraw =>
      cases hupd : tbl.updateFirst op.key (fun v => sub64 v op.new_request_budget) with
      | error e =>
        obtain ⟨t2, ht2⟩ := HashTable.updateFirst_ok_of_contains tbl op.key
          (fun v => sub64 v op.new_request_budget) hpop
        rw [ht2] at hupd
        cases hupd
      | ok t2 =>
        have hwf2 := HashTable.wf_updateFirst tbl t2 op.key _ hwf hupd
        have hcont2 : ∀ o ∈ rest, t2.contains o.key = true := by
          intro o ho
          rw [HashTable.updateFirst_contains_eq tbl t2 op.key _ hupd o.key]
          exact hp o (List.mem_cons_of_mem op ho)
        obtain ⟨ihok, ihwf, ihpres, iheff⟩ :=
          ih (sub64 budget op.new_request_budget) t2 hkrest hcont2 hwf2
        refine ⟨ihok, ihwf, ?_, ?_⟩
        · intro q hq
          rw [List.map_cons, List.mem_cons] at hq
          push_neg at hq
          obtain ⟨hpres1, hpres2⟩ := ihpres q hq.2
          constructor
          · rw [hpres1, HashTable.updateFirst_contains_eq tbl t2 op.key _ hupd q]
          · rw [hpres2, HashTable.updateFirst_get_other tbl t2 op.key _ hupd q hq.1]
        · intro o ho
          rcases List.mem_cons.mp ho with rfl | ho2
          · constructor
            · intro hcl
              rw [hty] at hcl
              cases hcl
            · intro _ v hv
              rw [(ihpres o.key hkey).2]
              exact HashTable.updateFirst_get_self tbl t2 o.key _ v hupd hv
          · obtain ⟨he1, he2⟩ := iheff o ho2
            refine ⟨he1, ?_⟩
            intro hwd v hv
            apply he2 hwd v
            rw [HashTable.updateFirst_get_other tbl t2 op.key _ hupd o.key (hrestkeys o ho2)]
            exact hv
    | OpenAccount =>
      obtain ⟨ihok, ihwf, ihpres, iheff⟩ := ih (sub64 budget op.new_request_budget) tbl hkrest
        (fun o ho => hp o (List.mem_cons_of_mem op ho)) hwf
      refine ⟨ihok, ihwf, ?_, ?_⟩
      · intro q hq
        rw [List.map_cons, List.mem_cons] at hq
        push_neg at hq
        exact ihpres q hq.2
      · intro o ho
        rcases List.mem_cons.mp ho with rfl | ho2
        · exact ⟨fun hcl => (by rw [hty] at hcl; cases hcl), fun hwd => (by rw [hty] at hwd; cases hwd)⟩
        · exact iheff o ho2
    | Deposit =>
      obtain ⟨ihok, ihwf, ihpres, iheff⟩ := ih (sub64 budget op.new_request_budget) tbl hkrest
        (fun o ho => hp o (List.mem_cons_of_mem op ho)) hwf
      refine ⟨ihok, ihwf, ?_, ?_⟩
      · intro q hq
        rw [List.map_cons, List.mem_cons] at hq
        push_neg at hq
        exact ihpres q hq.2
      · intro o ho
        rcases List.mem_cons.mp ho with rfl | ho2
        · exact ⟨fun hcl => (by rw [hty] at hcl; cases hcl), fun hwd => (by rw [hty] at hwd; cases hwd)⟩
        · exact iheff o ho2
    | Loan =>
      obtain ⟨ihok, ihwf, ihpres, iheff⟩ := ih (sub64 budget op.new_request_budget) tbl hkrest
        (fun o ho => hp o (List.mem_cons_of_mem op ho)) hwf
      refine ⟨ihok, ihwf, ?_, ?_⟩
      · intro q hq
        rw [List.map_cons, List.mem_cons] at hq
        push_neg at hq
        exact ihpres q hq.2
      · intro o ho
        rcases List.mem_cons.mp ho with rfl | ho2
        · exact ⟨fun hcl => (by rw [hty] at hcl; cases hcl), fun hwd => (by rw [hty] at hwd; cases hwd)⟩
        · exact iheff o ho2
    | None =>
      obtain ⟨ihok, ihwf, ihpres, iheff⟩ := ih (sub64 budget op.new_request_budget) tbl hkrest
        (fun o ho => hp o (List.mem_cons_of_mem op ho)) hwf
      refine ⟨ihok, ihwf, ?_, ?_⟩
      · intro q hq
        rw [List.map_cons, List.mem_cons] at hq
        push_neg at hq
        exact ihpres q hq.2
      · intro o ho
        rcases List.mem_cons.mp ho with rfl | ho2
        · exact ⟨fun hcl => (by rw [hty] at hcl; cases hcl), fun hwd => (by rw [hty] at hwd; cases hwd)⟩
        · exact iheff o ho2

/-- Claim C2 amended: for every Bank state whose pending operations have
pairwise-distinct keys all present in a well-formed ledger (so that no
ledger exception interrupts the loop) and whose amounts have exact sum
below 2^64 (so that the uint64 accumulation of the safety check does not
wrap; the code compares the wrapped sum, and a wrapping batch can be
accepted with a sum exceeding the budget), update_accounts_operations
accepts exactly when the exact sum is at most the bank-wide budget; when
accepted the budget decreases by each amount (final value budget − sum),
each CloseAccount key is removed from the ledger, and each Withdraw
account's ledger budget decreases by its amount modulo 2^64; when rejected
no budget or ledger mutation occurs; in both cases the queue is cleared. -/
theorem update_accounts_operations_spec (b : Bank) (hb : b.bank_budget < w64)
    (hw : opsTotal b.new_operations < w64)
    (hk : (b.new_operations.map (fun op => op.key)).Nodup)
    (hp : ∀ op ∈ b.new_operations, b.accounts_budget.contains op.key = true)
    (hwf : b.accounts_budget.WF) :
    ((b.update_accounts_operations).1 = some true ↔
      opsTotal b.new_operations ≤ b.bank_budget) ∧
    ((b.update_accounts_operations).1 = some true →
      (b.update_accounts_operations).2.bank_budget =
        b.bank_budget - opsTotal b.new_operations ∧
      (∀ o ∈ b.new_operations,
        (o.new_request_type = RequestType.CloseAccount →
          (b.update_accounts_operations).2.accounts_budget.contains o.key = false) ∧
        (o.new_request_type = RequestType.Withdraw → ∀ v,
          b.accounts_budget.get o.key = .ok v →
          (b.update_accounts_operations).2.accounts_budget.get o.key =
            .ok (sub64 v o.new_request_budget)))) ∧
    ((b.update_accounts_operations).1 = some false →
      b.update_accounts_operations = (some false, { b with new_operations := [] })) ∧
    (b.update_accounts_operations).2.new_operations = [] := by
  obtain ⟨hok, hwf2, hpres, heff⟩ :=
    runOps_spec b.new_operations b.bank_budget b.accounts_budget hk hp hwf
  rcases update_ops_destruct b with ⟨hemp, heq⟩ | ⟨hne, hsf, heq⟩ | ⟨hne, hsf, ⟨hok2, heq⟩ | ⟨hok2, heq⟩⟩
  · rw [heq, hemp]
    refine ⟨?_, ?_, ?_, rfl⟩
    · simp [opsTotal]
    · intro _
      refine ⟨by simp [opsTotal], ?_⟩
      intro o ho
      cases ho
    · intro hcon
      cases hcon
  · have hgt : ¬ opsTotal b.new_operations ≤ b.bank_budget := by
      intro hle
      have := (are_safe_operations_iff b hw).mpr hle
      rw [hsf] at this
      cases this
    rw [heq]
    refine ⟨?_, ?_, fun _ => rfl, rfl⟩
    · constructor
      · intro hcon
        cases hcon
      · intro hle
        exact (hgt hle).elim
    · intro hcon
      cases hcon
  · have hle : opsTotal b.new_operations ≤ b.bank_budget :=
      (are_safe_operations_iff b hw).mp hsf
    obtain ⟨hb1, hb2, hb3⟩ := runOps_budget b.new_operations b.bank_budget b.accounts_budget hb hle
    rw [heq]
    refine ⟨?_, ?_, ?_, rfl⟩
    · simp only
      constructor
      · intro _
        exact hle
      · intro _
        trivial
    · intro _
      refine ⟨?_, ?_⟩
      · simp only
        exact hb3 hok2
      · intro o ho
        simp only
        exact heff o ho
    · intro hcon
      cases hcon
  · rw [hok] at hok2
    cases hok2

/-- Claim C2 witness: budget 50, accounts 1 ↦ 30 and 2 ↦ 25 in a
well-formed ledger, a withdrawal of 10 and a close of 25 with distinct
keys; the total 35 fits the budget and the batch is accepted. -/
theorem update_accounts_operations_spec_witness :
    bankOpsEx.accounts_budget.WF ∧
    ((bankOpsEx.update_accounts_operations).1 = some true ↔
      opsTotal bankOpsEx.new_operations ≤ bankOpsEx.bank_budget) ∧
    (bankOpsEx.update_accounts_operations).2.new_operations = [] := by
  have hwf : bankOpsEx.accounts_budget.WF :=
    wf_applyLedgerOps (HashTable.empty Nat 65536) [.ins 1 30, .ins 2 25]
      (HashTable.wf_empty Nat 65536 (by decide))
  have h := update_accounts_operations_spec bankOpsEx (by decide) (by decide) (by decide)
    (by decide) hwf
  exact ⟨hwf, h.1, h.2.2.2⟩

/-- Claim C2 counterexample: the claim fails in two ways.  Acceptance does
not follow the exact sum: with budget 5 and two withdrawals of 2^63 the
uint64 sum wraps to 0, the batch is accepted although the exact sum 2^64
exceeds 5, and account 1 is mutated to 2^63.  The queue is not always
cleared: closing a key absent from the ledger throws after the safety
check, the clear call is never reached, and the call ends with no boolean
result and the operation still queued. -/
theorem update_accounts_operations_counterexample :
    (bankSumWrap.update_accounts_operations.1 = some true ∧
      opsTotal bankSumWrap.new_operations = 2 ^ 64 ∧
      bankSumWrap.bank_budget = 5 ∧
      lookupFirst 1 (bankSumWrap.update_accounts_operations.2.accounts_budget.bucketOf 1) =
        some (2 ^ 63)) ∧
    (bankCloseMissing.update_accounts_operations.1 = none ∧
      bankCloseMissing.update_accounts_operations.2.new_operations =
        [⟨1, RequestType.CloseAccount, 0⟩]) :=
  ⟨⟨by decide, by decide, by decide, by decide⟩, by decide, by decide⟩
